import Mathlib

/-!
Verification of the slurm_status_tools decoder/tokenizer core.

Strings are modelled as lists of characters (`Str := List Char`).
Python operations that can raise are modelled in an exception monad
`Py := Except String`; a bare Python `try/except` catching everything is
`pyCatchAll`.  Functions are translated from the repository sources
(`src/parse.py`, `src/gather/parse.py`, `src/interpret/_safe_convert.py`,
`src/interpret/decode.py`, `src/interpret/memory.py`, `src/interpret/node.py`,
`src/interpret/tres.py`, `src/interpret/mapping.py`, `src/functional.py`).
-/

abbrev Str := List Char

/-- Python exception monad: `Except.error msg` models a raised exception. -/
abbrev Py (α : Type) := Except String α

instance {ε α : Type} [DecidableEq ε] [DecidableEq α] : DecidableEq (Except ε α) :=
  fun x y =>
    match x, y with
    | .ok a, .ok b => decidable_of_iff (a = b) (by simp)
    | .error e, .error f => decidable_of_iff (e = f) (by simp)
    | .ok _, .error _ => isFalse (by simp)
    | .error _, .ok _ => isFalse (by simp)

/-- A bare Python `try: x except: fallback` (catches every exception). -/
def pyCatchAll {α : Type} (x : Py α) (fb : α) : α :=
  match x with
  | .ok a => a
  | .error _ => fb

/-- Python `lst[i]`: raises IndexError when out of range. -/
def pyIdx {α : Type} (l : List α) (i : Nat) : Py α :=
  match l.get? i with
  | some x => .ok x
  | none => .error "IndexError"

/-- A Python list comprehension `[f x for x in l]` over a fallible `f`:
propagates the first raised exception. -/
def mapExcept {α β : Type} (f : α → Py β) : List α → Py (List β)
  | [] => .ok []
  | x :: xs =>
    match f x with
    | .error e => .error e
    | .ok y =>
      match mapExcept f xs with
      | .error e => .error e
      | .ok ys => .ok (y :: ys)

/-- Python `s.split(sep)` for a single-character separator: splits on every
occurrence and keeps empty pieces; `"".split(sep) == [""]`. -/
def splitCh (c : Char) : Str → List Str
  | [] => [[]]
  | x :: xs =>
    match splitCh c xs with
    | [] => [[x]]
    | y :: ys => if x = c then [] :: y :: ys else (x :: y) :: ys

/-- Split at the first occurrence of `c` (Python `s.split(sep, 1)` when the
separator is present): returns (part before, part after). -/
def splitFirst (c : Char) : Str → Str × Str
  | [] => ([], [])
  | x :: xs =>
    if x = c then ([], xs)
    else
      let r := splitFirst c xs
      (x :: r.1, r.2)

/-- Python `s.split(sep, maxsplit=1)`: two pieces when the separator occurs,
otherwise the whole string as a single piece. -/
def pySplitMax1 (c : Char) (v : Str) : List Str :=
  if c ∈ v then [(splitFirst c v).1, (splitFirst c v).2] else [v]

/-- The pieces that `sep.join` places after the first element:
`sep`-prefixed copies of the remaining elements, concatenated. -/
def sepJoinC (c : Char) (ls : List Str) : Str :=
  (ls.map (fun a => c :: a)).flatten

/-- Python `sep.join(ls)` for a single-character separator. -/
def joinC (c : Char) : List Str → Str
  | [] => []
  | x :: xs => x ++ sepJoinC c xs

/-- The pieces that a string-valued `sep.join` places after the first element. -/
def sepJoinS (sep : Str) (ls : List Str) : Str :=
  (ls.map (fun a => sep ++ a)).flatten

/-- Python `sep.join(ls)` for a string separator. -/
def joinS (sep : Str) : List Str → Str
  | [] => []
  | x :: xs => x ++ sepJoinS sep xs

/-- Numeric value of a decimal digit character. -/
def chVal (c : Char) : Nat := c.toNat - 48

/-- Value of a list of decimal digit characters (Python `int` on a digit
string). -/
def natOfDigits (l : Str) : Nat :=
  l.foldl (fun a c => 10 * a + chVal c) 0

/-- Whitespace as stripped by Python `int()` (common cases). -/
def isSpaceCh (c : Char) : Bool :=
  c = ' ' || c = '\t' || c = '\n' || c = '\r'

/-- The regex character class `[0-9]` (also what Python `int` accepts as a
digit): exactly the characters `'0'` (code 48) through `'9'` (code 57). -/
def isDigitCh (c : Char) : Bool :=
  48 ≤ c.toNat && c.toNat ≤ 57

/-- The character `'0'` (used to split off leading zeros of a digit group). -/
def isZeroCh (c : Char) : Bool :=
  c = '0'

/-- Python `int(s)` on a string: strips surrounding whitespace, accepts an
optional sign followed by decimal digits, otherwise fails (ValueError).
(Underscore separators and non-ASCII digits are not modelled; no input in
this development uses them.) -/
def pyIntParse (l : Str) : Option Int :=
  let t := ((l.dropWhile isSpaceCh).reverse.dropWhile isSpaceCh).reverse
  match t with
  | '-' :: ds =>
    if ds ≠ [] ∧ ds.all isDigitCh then some (-(natOfDigits ds : Int)) else none
  | '+' :: ds =>
    if ds ≠ [] ∧ ds.all isDigitCh then some ((natOfDigits ds : Int)) else none
  | ds =>
    if ds ≠ [] ∧ ds.all isDigitCh then some ((natOfDigits ds : Int)) else none

/-- Python dict assignment `d[k] = v` on an insertion-ordered dict:
updates the value in place when the key exists, otherwise appends. -/
def dictInsert {α : Type} : List (Str × α) → Str → α → List (Str × α)
  | [], k, v => [(k, v)]
  | (k', v') :: rest, k, v =>
    if k' = k then (k', v) :: rest else (k', v') :: dictInsert rest k v

/-- Python `k in d` on an insertion-ordered dict. -/
def dictHasKey {α : Type} (d : List (Str × α)) (k : Str) : Bool :=
  d.any (fun kv => kv.1 = k)

/-- Python `d[k].append(v)` on a dict of lists (key created when absent;
every call site in the sources has the key already present). -/
def dictAppend {α : Type} : List (Str × List α) → Str → α → List (Str × List α)
  | [], k, v => [(k, [v])]
  | (k', vs) :: rest, k, v =>
    if k' = k then (k', vs ++ [v]) :: rest else (k', vs) :: dictAppend rest k v

/-! ## `parse.py` — record tokenizer and record assembly -/

/-- Does a part contain the `=` separator (`SEPARATOR in part`)? -/
def hasEq (p : Str) : Bool := p.contains '='

/-- Loop body of `tokenize_scontrol_line`: parts are consumed in reverse line
order; `acc` is the value accumulator.  (The Python code appends parts in
scan order and joins `reversed(...)`; here `acc` is kept directly in line
order, so `rest :: acc` is the reversed accumulator being joined.) -/
def tokenizeAux : List Str → List Str → List (Str × Str)
  | [], _ => []
  | p :: ps, acc =>
    if hasEq p then
      let kr := splitFirst '=' p
      (kr.1, joinC ' ' (kr.2 :: acc)) :: tokenizeAux ps []
    else
      tokenizeAux ps (p :: acc)

/-- `tokenize_scontrol_line` from `src/parse.py` (identical to
`_tokenize_scontrol_line` in `src/gather/parse.py`): split on spaces and scan
the parts in reverse, emitting (key, value) pairs. -/
def tokenize_scontrol_line (s : Str) : List (Str × Str) :=
  tokenizeAux (splitCh ' ' s).reverse []

/-- `_parse_scontrol_line` from `src/gather/parse.py`: tokenize, then build an
insertion-ordered dict of per-key value lists and join each list with
`join_duplicates_with`. -/
def _parse_scontrol_line (s : Str) (join_duplicates_with : Str) : List (Str × Str) :=
  let tokens := tokenize_scontrol_line s
  let keys := tokens.map Prod.fst
  let data0 := keys.foldl (fun d k => dictInsert d k ([] : List Str)) []
  let data1 := tokens.foldl (fun d kv => dictAppend d kv.1 kv.2) data0
  data1.map (fun kv => (kv.1, joinS join_duplicates_with kv.2))

/-- `parse_scontrol_line` from `src/parse.py`.  Its final comprehension is
`{k: join_duplicates_with.join(v) for k, v in data}` — iterating the dict
itself, not `data.items()`, so each KEY string is unpacked into `k, v`:
this succeeds only when the key has exactly two characters (giving two
one-character strings) and raises ValueError otherwise.  `join(v)` on the
resulting one-character string returns it unchanged. -/
def parse_scontrol_line (s : Str) (join_duplicates_with : Str) : Py (List (Str × Str)) :=
  let tokens := tokenize_scontrol_line s
  let keys := tokens.map Prod.fst
  let data0 := keys.foldl (fun d k => dictInsert d k ([] : List Str)) []
  let data1 := tokens.foldl (fun d kv => dictAppend d kv.1 kv.2) data0
  do
    let kvs ← mapExcept (fun kv : Str × List Str =>
      match kv.1 with
      | [a, b] => Except.ok (([a] : Str), ([b] : Str))
      | _ => Except.error "ValueError") data1
    pure (kvs.foldl
      (fun d kv => dictInsert d kv.1 (joinS join_duplicates_with (kv.2.map (fun c => [c]))))
      [])

/-! ## `src/interpret/_safe_convert.py` -/

/-- `convert_value_to_bool_safe`: literal match against the true/false
literals, anything else decodes to null. -/
def convert_value_to_bool_safe (tv fv v : Str) : Option Bool :=
  if v = tv then some true
  else if v = fv then some false
  else none

/-- `convert_value_unsafe_to_safe` (at string type): `_v == _unsafe_v or _v is
None` maps to the safe value, anything else passes through. -/
def convert_value_unsafe_to_safe (u : Str) (safe : Option Str) (v : Option Str) : Option Str :=
  if v = some u ∨ v = none then safe else v

/-- `convert_value_unsafe_to_none` (at string type). -/
def convert_value_unsafe_to_none (u : Str) (v : Str) : Option Str :=
  convert_value_unsafe_to_safe u none (some v)

/-- Python `int(_v)` where `_v : Optional[str]`: raises TypeError on `None`
and ValueError on a non-numeric string. -/
def pyIntCast (v : Option Str) : Py Int :=
  match v with
  | none => .error "TypeError"
  | some s =>
    match pyIntParse s with
    | some n => .ok n
    | none => .error "ValueError"

/-- `type_cast_value_unsafe_to_safe` specialised to `int`: `try: _type(_v)
except: _safe_v`. -/
def type_cast_int_unsafe_to_safe (safe : Option Int) (v : Option Str) : Option Int :=
  pyCatchAll (do
    let n ← pyIntCast v
    pure (some n)) safe

/-- `type_cast_value_unsafe_to_none` / `type_cast_int_unsafe_to_none`
specialised to `int`. -/
def type_cast_int_unsafe_to_none (v : Option Str) : Option Int :=
  type_cast_int_unsafe_to_safe none v

/-- `restrict_negative_value_to_safe`: `None` or a negative value maps to the
safe value. -/
def restrict_negative_value_to_safe (safe : Option Int) (v : Option Int) : Option Int :=
  match v with
  | none => safe
  | some n => if n < 0 then safe else some n

/-- `restrict_negative_value_to_none`. -/
def restrict_negative_value_to_none (v : Option Int) : Option Int :=
  restrict_negative_value_to_safe none v

/-! ## `src/interpret/decode.py`

The decoders are returned inside `Py` so that "never raises" is visible in
the statements: `.ok r` is a normal Python return. -/

/-- `na_str`: `"N/A"` decodes to null, everything else passes through. -/
def na_str (v : Str) : Py (Option Str) :=
  .ok (convert_value_unsafe_to_none ("N/A".toList) v)

/-- `ns_int`: `"n/s"` decodes to null, then an `int` cast with null fallback. -/
def ns_int (v : Str) : Py (Option Int) :=
  .ok (type_cast_int_unsafe_to_none (convert_value_unsafe_to_none ("n/s".toList) v))

/-- `dont_care_int`: `"*"` decodes to null, `int` cast with null fallback,
negative results clipped to null. -/
def dont_care_int (v : Str) : Py (Option Int) :=
  .ok (restrict_negative_value_to_none
    (type_cast_int_unsafe_to_none
      (convert_value_unsafe_to_safe ("*".toList) none (some v))))

/-- `unlimited_int`: `"UNLIMITED"` decodes to null, `int` cast with null
fallback, negative results clipped to null. -/
def unlimited_int (v : Str) : Py (Option Int) :=
  .ok (restrict_negative_value_to_none
    (type_cast_int_unsafe_to_none
      (convert_value_unsafe_to_safe ("UNLIMITED".toList) none (some v))))

/-- `yes_no_bool`: literal `"yes"`/`"no"` to true/false, else null. -/
def yes_no_bool (v : Str) : Py (Option Bool) :=
  .ok (convert_value_to_bool_safe ("yes".toList) ("no".toList) v)

/-- `int_bool`: `convert_value_to_bool_safe("0", "1", _v)` — the TRUE literal
is `"0"` and the FALSE literal is `"1"` in the source. -/
def int_bool (v : Str) : Py (Option Bool) :=
  .ok (convert_value_to_bool_safe ("0".toList) ("1".toList) v)

/-- `delimited_list`: `_v.split(_delimiter)` (single-character delimiter at
every call site). -/
def delimited_list (d : Char) (v : Str) : List Str :=
  splitCh d v

/-- `comma_separated_list`, wrapped in `Py` (it cannot raise). -/
def comma_separated_list (v : Str) : Py (List Str) :=
  .ok (delimited_list ',' v)

/-- `separated_key_value`: `v = _v.split(_separator, maxsplit=1); k = v[0];
v = v[1]` — the `v[1]` index raises IndexError when the separator is absent. -/
def separated_key_value (sep : Char) (v : Str) : Py (Str × Str) :=
  let parts := pySplitMax1 sep v
  match pyIdx parts 0 with
  | .error e => .error e
  | .ok k =>
    match pyIdx parts 1 with
    | .error e => .error e
    | .ok val => .ok (k, val)

/-- `comma_separated_key_value_list`: split on commas, then
`separated_key_value("=", item)` for each item. -/
def comma_separated_key_value_list (v : Str) : Py (List (Str × Str)) :=
  let out := delimited_list ',' v
  mapExcept (separated_key_value '=') out

/-- `ranged`: split once on the separator, append `""` when it was absent.
(The docstring mentions `None` results but the code always returns a pair.) -/
def ranged (sep : Char) (v : Str) : Str × Str :=
  match pySplitMax1 sep v with
  | [a, b] => (a, b)
  | [a] => (a, [])
  | _ => ([], [])

/-- `enclosed`: strip a bracket pair; `None` when the string is not enclosed.
When enclosed, `left = find(open) + 1 = 1` and `right = rfind(close) =
len - 1`, so the slice is `drop 1` then `dropLast`. -/
def enclosed (brackets : Char × Char) (v : Str) : Option Str :=
  if v.head? = some brackets.1 ∧ v.getLast? = some brackets.2 then
    some ((v.drop 1).dropLast)
  else
    none

/-- `CommaHyphenIntRangeList`. -/
structure CommaHyphenIntRangeList where
  ranges : List (Int × Int)
deriving DecidableEq

/-- One iteration of the range-building loop in
`CommaHyphenIntRangeList.from_string`: `try int` on both pieces, then
combine (`(v0,v1)`, `(v0,v0)`, `(v1,v1)` or `None`). -/
def chirlCombine (rs : Str × Str) : Option (Int × Int) :=
  let v0 := pyCatchAll (do let n ← pyIntCast (some rs.1); pure (some n)) none
  let v1 := pyCatchAll (do let n ← pyIntCast (some rs.2); pure (some n)) none
  match v0, v1 with
  | some a, some b => some (a, b)
  | some a, none => some (a, a)
  | none, some b => some (b, b)
  | none, none => none

/-- `CommaHyphenIntRangeList.from_string`, wrapped in `Py` (its only fallible
operations are `int` casts inside `try/except`).  The dead `any_none` check
on the tuple list is omitted (tuples are never `None`). -/
def CommaHyphenIntRangeList.from_string (v : Str) : Py (Option CommaHyphenIntRangeList) :=
  .ok (
    let items := delimited_list ',' v
    let range_strings := items.map (ranged '-')
    let ranges := range_strings.map chirlCombine
    if ranges.any (fun r => r.isNone) then none
    else some ⟨ranges.filterMap id⟩)

/-! ## `src/functional.py` and `src/interpret/mapping.py` -/

/-- `noop` from `src/functional.py`: `def noop(*args, **kwargs) -> None: pass`
— it ignores its argument and returns `None`, even though the dictionary
comment in `mapping.py` documents it as `noop -> str`. -/
def noop (_v : Str) : Option Str :=
  none

/-- The interpreter registered for a field in `from_scontrol_jobs_show`
(constructors name the Python functions; only `noopFn` is applied in this
development). -/
inductive JobsShowEntry : Type
  | ignoreFn
  | exitCodeFromString
  | noopFn
  | nTasksPerNBSCFromString
  | timepointDatetime
  | reqBSCTFromString
  | secondsTimedelta
  | dontCareIntFn
deriving DecidableEq

/-- `from_scontrol_jobs_show` from `src/interpret/mapping.py`. -/
def from_scontrol_jobs_show : List (Str × JobsShowEntry) :=
  [ ("allocnode:sid".toList, .ignoreFn)
  , ("batchflag".toList, .ignoreFn)
  , ("exitcode".toList, .exitCodeFromString)
  , ("groupid".toList, .noopFn)
  , ("jobstate".toList, .noopFn)
  , ("nodelistindices".toList, .ignoreFn)
  , ("ntaskspern:b:s:c".toList, .nTasksPerNBSCFromString)
  , ("preempteligibletime".toList, .timepointDatetime)
  , ("preempttime".toList, .timepointDatetime)
  , ("presustime".toList, .timepointDatetime)
  , ("reason".toList, .noopFn)
  , ("reqb:s:c:t".toList, .reqBSCTFromString)
  , ("secspresuspend".toList, .secondsTimedelta)
  , ("socks/node".toList, .dontCareIntFn)
  , ("submittime".toList, .timepointDatetime)
  , ("suspendtime".toList, .timepointDatetime)
  ]

/-- Dict lookup in a mapping table. -/
def tableLookup {α : Type} : List (Str × α) → Str → Option α
  | [], _ => none
  | (k', v') :: rest, k => if k' = k then some v' else tableLookup rest k

/-! ## `src/interpret/memory.py` -/

/-- `BYTE_CONVERSIONS` as a lookup (KeyError modelled as `none`). -/
def BYTE_CONVERSIONS (c : Char) : Option Int :=
  if c = 't' then some 1099511627776
  else if c = 'g' then some 1073741824
  else if c = 'm' then some 1048576
  else if c = 'k' then some 1024
  else none

/-- `_MEMORY_SPEC_REGEX.match`: the pattern `([1-9][0-9]*)([a-z])([a-z])`
matched at the start of the string (trailing characters permitted).  The
digit run is greedy; since digits and lowercase letters are disjoint no
backtracking can occur. -/
def memorySpecMatch (l : Str) : Option (Str × Char × Char) :=
  match l with
  | [] => none
  | c :: rest =>
    if '1' ≤ c ∧ c ≤ '9' then
      let ds := rest.takeWhile isDigitCh
      match rest.dropWhile isDigitCh with
      | a :: b :: _ =>
        if ('a' ≤ a ∧ a ≤ 'z') ∧ ('a' ≤ b ∧ b ≤ 'z') then some (c :: ds, a, b)
        else none
      | _ => none
    else none

/-- `MemorySpec` (the multiplier code and SI prefix are single characters
from the regex's one-character groups). -/
structure MemorySpec where
  multiplier_count_code : Char
  byte_per_multiplier_count : Int
  siPfx : Char
deriving DecidableEq

/-- `_convert_memory_to_bytes`: `None` count stays `None`; an unknown prefix
raises KeyError which is caught and becomes `None`. -/
def _convert_memory_to_bytes (pfx : Char) (cnt : Option Int) : Option Int :=
  match cnt with
  | none => none
  | some n =>
    match BYTE_CONVERSIONS pfx with
    | some b => some (b * n)
    | none => none

/-- `MemorySpec.from_string`: regex match, `int` on the digit group (its
`try/except` cannot fire on a digit group), then byte conversion.  The
`is None` checks on the matched one-character groups are dead and omitted. -/
def MemorySpec.from_string (v : Str) : Option MemorySpec :=
  match memorySpecMatch v with
  | none => none
  | some (siCount, pfx, code) =>
    match pyIntParse siCount with
    | none => none
    | some n =>
      match _convert_memory_to_bytes pfx (some n) with
      | none => none
      | some bc => some ⟨code, bc, pfx⟩

/-- `MemorySpec.__call__`: per-core multiplies by `core_count`, per-node by
`node_count`, any other stored code hits `assert False`. -/
def MemorySpec.call (ms : MemorySpec) (core_count node_count : Int) : Py Int :=
  if ms.multiplier_count_code = 'c' then .ok (core_count * ms.byte_per_multiplier_count)
  else if ms.multiplier_count_code = 'n' then .ok (node_count * ms.byte_per_multiplier_count)
  else .error "AssertionError"

/-! ## `src/interpret/node.py` -/

/-- Little-endian decimal digits of `n` rendered as characters
(`(Nat.digits 10 n).map ...` reversed gives the usual notation; `n = 0`
renders as the empty string and is restored by zero padding). -/
def decimalRepr (n : Nat) : Str :=
  ((Nat.digits 10 n).map (fun d => Char.ofNat (48 + d))).reverse

/-- Python `f"{n:0{w}d}"` for a natural number: decimal digits left-padded
with zeros to width `w`. -/
def padNat (n : Nat) (w : Nat) : Str :=
  List.replicate (w - (decimalRepr n).length) '0' ++ decimalRepr n

/-- Python `f"{n:0{w}d}"` for an `int` (a negative sign counts toward the
width; all values in this development are non-negative). -/
def pyFmtZeroPad (n : Int) (w : Nat) : Str :=
  if n < 0 then '-' :: padNat n.natAbs (w - 1) else padNat n.toNat w

/-- `_NODE_SPEC_REGEX.match` scan: the pattern `(.+?)([0-9]+)$` with a lazy
prefix.  `pre` holds the prefix candidate in reverse; the first position
(after at least one prefix character) whose suffix is all digits matches.
`.` does not match a newline, so a newline aborts the scan. -/
def singleAux : Str → Str → Option (Str × Str)
  | _, [] => none
  | pre, c :: cs =>
    if pre ≠ [] ∧ (c :: cs).all isDigitCh then some (pre.reverse, c :: cs)
    else if c = '\n' then none
    else singleAux (c :: pre) cs

/-- `_NODE_SPEC_REGEX.match`: `$` also matches just before one trailing
newline, so such a newline is stripped before the scan. -/
def nodeSingleMatch (l : Str) : Option (Str × Str) :=
  let body := if l.getLast? = some '\n' then l.dropLast else l
  singleAux [] body

/-- The part of `_NODE_SPEC_RANGE_REGEX` after the literal `[`:
`([0-9]+)-([0-9]+)\]` with greedy digit runs (digits, `-` and `]` are
disjoint, so greediness is exact). -/
def rangeBody (l : Str) : Option (Str × Str) :=
  let lo := l.takeWhile isDigitCh
  match l.dropWhile isDigitCh with
  | c1 :: r2 =>
    if c1 = '-' then
      let hi := r2.takeWhile isDigitCh
      if lo ≠ [] ∧ hi ≠ [] then
        match r2.dropWhile isDigitCh with
        | c2 :: _ => if c2 = ']' then some (lo, hi) else none
        | [] => none
      else none
    else none
  | [] => none

/-- `_NODE_SPEC_RANGE_REGEX.match` scan: `(.+?)\[([0-9]+)-([0-9]+)\]` with a
lazy prefix; the first `[` (preceded by at least one prefix character) whose
body parses wins, otherwise the `[` joins the prefix and the scan goes on.
The pattern is not anchored at the end. -/
def rangeAux : Str → Str → Option (Str × Str × Str)
  | _, [] => none
  | pre, c :: cs =>
    if c = '[' ∧ pre ≠ [] then
      match rangeBody cs with
      | some lh => some (pre.reverse, lh.1, lh.2)
      | none => rangeAux (c :: pre) cs
    else if c = '\n' then none
    else rangeAux (c :: pre) cs

/-- `_NODE_SPEC_RANGE_REGEX.match`. -/
def nodeRangeMatch (l : Str) : Option (Str × Str × Str) :=
  rangeAux [] l

/-- `_NodeSpec` (`pfx` is the source's `_prefix` field). -/
structure NodeSpec where
  pfx : Str
  digits : Nat
  range : Int × Int
deriving DecidableEq

/-- `_NodeSpec._from_parts`: digit width is the longer group as written;
`int` on digit groups. -/
def NodeSpec.from_parts (pfx lo hi : Str) : NodeSpec :=
  ⟨pfx, max lo.length hi.length, ((natOfDigits lo : Int), (natOfDigits hi : Int))⟩

/-- `_NodeSpec.from_string`: try the single-suffix regex, then the bracketed
range regex, else `None`.  (The `any_none(match.groups())` guards and the
`try/except` around `_from_parts` are dead for matched digit groups.) -/
def NodeSpec.from_string (v : Str) : Option NodeSpec :=
  match nodeSingleMatch v with
  | some pv => some (NodeSpec.from_parts pv.1 pv.2 pv.2)
  | none =>
    match nodeRangeMatch v with
    | some plh => some (NodeSpec.from_parts plh.1 plh.2.1 plh.2.2)
    | none => none

/-- `_NodeSpec.__str__`: a zero span prints the padded low endpoint, anything
else prints a padded bracketed range. -/
def NodeSpec.toStr (n : NodeSpec) : Str :=
  if n.range.2 - n.range.1 = 0 then n.pfx ++ pyFmtZeroPad n.range.1 n.digits
  else
    n.pfx ++ '[' :: (pyFmtZeroPad n.range.1 n.digits ++ '-' :: pyFmtZeroPad n.range.2 n.digits ++ [']'])

/-- `NodeList`. -/
structure NodeList where
  node_specs : List NodeSpec
deriving DecidableEq

/-- `any_none` from `src/interpret/_common.py` on a list of options. -/
def anyNone {α : Type} (l : List (Option α)) : Bool :=
  l.any (fun x => x.isNone)

/-- `NodeList.from_string`: split on commas, parse each token, `None` when
any token fails. -/
def NodeList.from_string (v : Str) : Option NodeList :=
  let tokens := delimited_list ',' v
  let node_specs := tokens.map NodeSpec.from_string
  if anyNone node_specs then none
  else some ⟨node_specs.filterMap id⟩

/-- `NodeList.__str__`: comma-join the node specs. -/
def NodeList.toStr (nl : NodeList) : Str :=
  joinC ',' (nl.node_specs.map NodeSpec.toStr)

/-! ## `src/interpret/tres.py` -/

/-- Python `str.casefold` restricted to ASCII (every key in the TRES
vocabulary and in the claims is ASCII). -/
def caseFold (l : Str) : Str :=
  l.map (fun c => if 'A' ≤ c ∧ c ≤ 'Z' then Char.ofNat (c.toNat + 32) else c)

/-- A value stored in `TresSpec._parts`.  In Python the `gres` entry and the
list entries alias the separately-kept `gres` and `lists` dicts; here they
are markers and the shared dicts live beside the parts in `TresSpec`. -/
inductive TresVal : Type
  | gresMark
  | listMark
  | num (n : Option Int)
deriving DecidableEq

/-- `TresSpec` (parts plus the dicts that its marker entries alias). -/
structure TresSpec where
  tres_parts : List (Str × TresVal)
  gres : List (Str × Option Int)
  lists : List (Str × List Str)
deriving DecidableEq

/-- `TresSpec._LISTS`. -/
def TresSpec.listKeys : List Str :=
  ["bb".toList, "fs".toList, "ic".toList, "license".toList]

/-- `TresSpec._NUMERICS`. -/
def TresSpec.numericKeys : List Str :=
  ["billing".toList, "cpu".toList, "energy".toList, "mem".toList,
   "node".toList, "pages".toList, "vmem".toList]

/-- The `for k, v in parts.items()` loop of `TresSpec.from_string`, threading
the three dicts; an unrecognized key reaches `assert False`
(AssertionError). -/
def tresLoop :
    List (Str × Str) → List (Str × TresVal) → List (Str × Option Int) →
    List (Str × List Str) → Py (List (Str × TresVal) × List (Str × Option Int) × List (Str × List Str))
  | [], tp, g, ls => .ok (tp, g, ls)
  | (k, v) :: rest, tp, g, ls =>
    if ("gres".toList).isPrefixOf k then
      let gres_key := (pySplitMax1 '/' k).getLastD []
      let gres_value := pyCatchAll (do let n ← pyIntCast (some v); pure (some n)) none
      let g' := dictInsert g gres_key gres_value
      let tp' := if dictHasKey tp ("gres".toList) then tp else dictInsert tp ("gres".toList) .gresMark
      tresLoop rest tp' g' ls
    else if k ∈ TresSpec.listKeys then
      let ls' := if dictHasKey ls k then dictAppend ls k v else dictAppend (dictInsert ls k []) k v
      let tp' := if dictHasKey tp k then tp else dictInsert tp k .listMark
      tresLoop rest tp' g ls'
    else if k ∈ TresSpec.numericKeys then
      let curr : Option Int :=
        if dictHasKey tp k then
          match tableLookup tp k with
          | some (.num o) => o
          | _ => none
        else some 0
      let numeric : Option Int :=
        match curr, pyIntParse v with
        | some c, some n => some (c + n)
        | _, _ => none
      tresLoop rest (dictInsert tp k (.num numeric)) g ls
    else
      .error "AssertionError"

/-- Unrecognized TRES key: not `gres`-prefixed, not a list key, not a
numeric key.  Such a key reaches the `assert False` fallthrough. -/
def tresBadKey (k : Str) : Prop :=
  ¬ (("gres".toList).isPrefixOf k = true) ∧ k ∉ TresSpec.listKeys ∧ k ∉ TresSpec.numericKeys

instance (k : Str) : Decidable (tresBadKey k) := by
  unfold tresBadKey
  infer_instance

/-- `TresSpec.from_string`: comma-split, `separated_key_value("=", token)` on
each token (this may raise IndexError), casefold the keys, build the
insertion-ordered dict, then run the dispatch loop.  The `any_none` checks
on keys and values are dead (strings are never `None`) and omitted. -/
def TresSpec.from_string (v : Str) : Py (Option TresSpec) :=
  let tokens := delimited_list ',' v
  match mapExcept (separated_key_value '=') tokens with
  | .error e => .error e
  | .ok token_parts =>
    let keys := (token_parts.map Prod.fst).map caseFold
    let values := token_parts.map Prod.snd
    let parts := (keys.zip values).foldl (fun d kv => dictInsert d kv.1 kv.2) []
    match tresLoop parts [] [] [] with
    | .error e => .error e
    | .ok r => .ok (some ⟨r.1, r.2.1, r.2.2⟩)

/-- Joined form of a (field, value) pair: `field=value`. -/
def joinPair (kv : Str × Str) : Str := kv.1 ++ '=' :: kv.2

/-- A node-spec token in the grammar of the claim: either a prefix followed by
a zero-padded numeric suffix (`"c0007"`), or a prefix followed by a bracketed
zero-padded range (`"c[0001-0010]"`).  Prefixes are non-empty and contain no
comma or newline; range prefixes additionally contain no `'['`, endpoints
have equal digit width and the low endpoint is strictly below the high one
(as in the repository's own test generator). -/
def GoodNodeToken (t : Str) : Prop :=
  (∃ p d, t = p ++ d ∧ p ≠ [] ∧ ',' ∉ p ∧ '\n' ∉ p ∧ d ≠ [] ∧ ∀ c ∈ d, isDigitCh c = true) ∨
  (∃ p lo hi, t = p ++ '[' :: (lo ++ '-' :: (hi ++ [']'])) ∧ p ≠ [] ∧ ',' ∉ p ∧ '\n' ∉ p ∧
    '[' ∉ p ∧ lo ≠ [] ∧ hi ≠ [] ∧ (∀ c ∈ lo, isDigitCh c = true) ∧
    (∀ c ∈ hi, isDigitCh c = true) ∧ lo.length = hi.length ∧ natOfDigits lo < natOfDigits hi)

/-! ## Helper lemmas -/

theorem mapExcept_ok_iff {α β : Type} (f : α → Py β) (l : List α) :
    (∃ r, mapExcept f l = .ok r) ↔ ∀ x ∈ l, ∃ y, f x = .ok y := by
  induction l with
  | nil => simp [mapExcept]
  | cons x xs ih =>
    constructor
    · rintro ⟨r, hr⟩
      rw [mapExcept] at hr
      intro a ha
      rcases List.mem_cons.mp ha with h | h
      · subst h
        cases hfx : f a with
        | error e => rw [hfx] at hr; exact absurd hr (by simp)
        | ok y => exact ⟨y, rfl⟩
      · cases hfx : f x with
        | error e => rw [hfx] at hr; exact absurd hr (by simp)
        | ok y =>
          rw [hfx] at hr
          cases hxs : mapExcept f xs with
          | error e => rw [hxs] at hr; exact absurd hr (by simp)
          | ok ys => exact (ih.mp ⟨ys, hxs⟩) a h
    · intro h
      obtain ⟨y, hy⟩ := h x (List.mem_cons_self x xs)
      obtain ⟨ys, hys⟩ := ih.mpr (fun a ha => h a (List.mem_cons_of_mem x ha))
      exact ⟨y :: ys, by rw [mapExcept, hy, hys]⟩

theorem separated_key_value_ok_of_mem {sep : Char} {v : Str} (h : sep ∈ v) :
    separated_key_value sep v = .ok ((splitFirst sep v).1, (splitFirst sep v).2) := by
  simp [separated_key_value, pySplitMax1, h, pyIdx]

theorem separated_key_value_error_of_not_mem {sep : Char} {v : Str} (h : sep ∉ v) :
    separated_key_value sep v = .error "IndexError" := by
  simp [separated_key_value, pySplitMax1, h, pyIdx]

/-! ## Claim C9 -/

/-- C9: the sentinel decoder boundary table, literally: `na_str "N/A" = none`,
`na_str "" = ""`, `ns_int "n/s" = none`, `dont_care_int "*" = none`,
`dont_care_int "-1" = none`, `dont_care_int "0" = 0`,
`unlimited_int "UNLIMITED" = none`, `yes_no_bool "yes" = true`,
`yes_no_bool "no" = false`, `yes_no_bool "other" = none`
(`.ok` is a normal, exception-free Python return). -/
theorem c9_sentinel_boundary_table :
    na_str ("N/A".toList) = .ok none ∧
    na_str ("".toList) = .ok (some ("".toList)) ∧
    ns_int ("n/s".toList) = .ok none ∧
    dont_care_int ("*".toList) = .ok none ∧
    dont_care_int ("-1".toList) = .ok none ∧
    dont_care_int ("0".toList) = .ok (some 0) ∧
    unlimited_int ("UNLIMITED".toList) = .ok none ∧
    yes_no_bool ("yes".toList) = .ok (some true) ∧
    yes_no_bool ("no".toList) = .ok (some false) ∧
    yes_no_bool ("other".toList) = .ok none := by
  decide

/-! ## Claim C4 -/

/-- C4 counterexample: on the input `"0"` the decoder returns `true`, not
`false` as the claim states — the source passes `"0"` as the TRUE literal of
`convert_value_to_bool_safe` (and `"1"` as the FALSE literal). -/
theorem c4_int_bool_counterexample :
    int_bool ("0".toList) = .ok (some true) ∧
    int_bool ("0".toList) ≠ .ok (some false) := by
  decide

/-- C4 (amended): `int_bool` maps `"0"` to TRUE, `"1"` to FALSE, and every
other string to null. -/
theorem c4_int_bool_literal_mapping :
    int_bool ("0".toList) = .ok (some true) ∧
    int_bool ("1".toList) = .ok (some false) ∧
    ∀ v : Str, v ≠ "0".toList → v ≠ "1".toList → int_bool v = .ok none := by
  refine ⟨by decide, by decide, ?_⟩
  intro v h0 h1
  unfold int_bool convert_value_to_bool_safe
  rw [if_neg h0, if_neg h1]

/-- C4 witness: an input that is neither `"0"` nor `"1"` decodes to null. -/
theorem c4_int_bool_witness : int_bool ("2".toList) = .ok none :=
  c4_int_bool_literal_mapping.2.2 ("2".toList) (by decide) (by decide)

/-! ## Claim C5 -/

/-- C5: `"groupid"`, `"jobstate"` and `"reason"` in `from_scontrol_jobs_show`
are registered to `noop`, but applying `noop` to a raw string value returns
`None`, NOT the raw string — contradicting both the claim and `mapping.py`'s
own table comment `noop -> str` (evaluated at the failing input
`("groupid", "users")`). -/
theorem c5_noop_returns_none :
    tableLookup from_scontrol_jobs_show ("groupid".toList) = some JobsShowEntry.noopFn ∧
    tableLookup from_scontrol_jobs_show ("jobstate".toList) = some JobsShowEntry.noopFn ∧
    tableLookup from_scontrol_jobs_show ("reason".toList) = some JobsShowEntry.noopFn ∧
    noop ("users".toList) = none ∧
    noop ("users".toList) ≠ some ("users".toList) := by
  decide

/-! ## Claim C3 -/

/-- C3: at the line `"Nodes=c0001 Nodes=c0003"` the gather copy
`_parse_scontrol_line` keeps both duplicate values but joins them in REVERSE
order of occurrence (`"c0003,c0001"`, against its own docstring's
`{Nodes:[c0001,c0003]}`), and the `src/parse.py` copy `parse_scontrol_line`
raises ValueError outright (its final comprehension iterates the dict's keys
instead of `items()` and unpacks each key string). -/
theorem c3_duplicate_joining_diverges :
    _parse_scontrol_line ("Nodes=c0001 Nodes=c0003".toList) (",".toList)
      = [("Nodes".toList, "c0003,c0001".toList)] ∧
    parse_scontrol_line ("Nodes=c0001 Nodes=c0003".toList) (",".toList)
      = Except.error "ValueError" := by
  decide

/-! ## Claim C7 -/

/-- C7: a parsed memory spec called with `(core_count, node_count)` multiplies
its byte count by `core_count` when the multiplier code is `'c'` and by
`node_count` when it is `'n'`; in particular
`MemorySpec.from_string "12gn"` called at `(2, 3)` gives `3 * 12 * 1024^3`
and `MemorySpec.from_string "8mc"` called at `(3, 4)` gives `3 * 8 * 1024^2`. -/
theorem c7_memory_spec_evaluation :
    (∀ (v : Str) (ms : MemorySpec), MemorySpec.from_string v = some ms →
      ∀ core_count node_count : Int,
        (ms.multiplier_count_code = 'c' →
          ms.call core_count node_count = .ok (core_count * ms.byte_per_multiplier_count)) ∧
        (ms.multiplier_count_code = 'n' →
          ms.call core_count node_count = .ok (node_count * ms.byte_per_multiplier_count))) ∧
    (∃ ms, MemorySpec.from_string ("12gn".toList) = some ms ∧
      ms.call 2 3 = .ok (3 * 12 * 1024 ^ 3)) ∧
    (∃ ms, MemorySpec.from_string ("8mc".toList) = some ms ∧
      ms.call 3 4 = .ok (3 * 8 * 1024 ^ 2)) := by
  refine ⟨?_, ⟨⟨'n', 12884901888, 'g'⟩, by decide, ?_⟩,
    ⟨⟨'c', 8388608, 'm'⟩, by decide, ?_⟩⟩
  · intro v ms _h core_count node_count
    constructor
    · intro hc
      unfold MemorySpec.call
      rw [hc, if_pos rfl]
    · intro hn
      unfold MemorySpec.call
      rw [hn]
      rw [if_neg (show ¬('n' = 'c') by decide)]
      rw [if_pos rfl]
  · show Except.ok (3 * (12884901888 : Int)) = Except.ok (3 * 12 * 1024 ^ 3)
    norm_num
  · show Except.ok (3 * (8388608 : Int)) = Except.ok (3 * 8 * 1024 ^ 2)
    norm_num

/-- C7 witness: the general multiplier law applied at the parse of `"12gn"`
with `(core_count, node_count) = (2, 3)`. -/
theorem c7_memory_spec_witness :
    MemorySpec.call ⟨'n', 12884901888, 'g'⟩ 2 3 = .ok (3 * (12884901888 : Int)) :=
  (c7_memory_spec_evaluation.1 ("12gn".toList) ⟨'n', 12884901888, 'g'⟩ (by decide) 2 3).2 rfl

/-! ## Claim C2 -/

/-- C2: every primitive decoder and every safe composite returns a normal
(`.ok`) value on every input string; the key-value splitter
`separated_key_value` succeeds exactly when the separator occurs in its
input (raising IndexError otherwise), and `comma_separated_key_value_list`
succeeds exactly when every comma token contains `'='`. -/
theorem c2_decode_never_raises :
    (∀ v : Str, ∃ r, na_str v = Except.ok r) ∧
    (∀ v : Str, ∃ r, ns_int v = Except.ok r) ∧
    (∀ v : Str, ∃ r, dont_care_int v = Except.ok r) ∧
    (∀ v : Str, ∃ r, unlimited_int v = Except.ok r) ∧
    (∀ v : Str, ∃ r, yes_no_bool v = Except.ok r) ∧
    (∀ v : Str, ∃ r, int_bool v = Except.ok r) ∧
    (∀ v : Str, ∃ r, comma_separated_list v = Except.ok r) ∧
    (∀ v : Str, ∃ r, CommaHyphenIntRangeList.from_string v = Except.ok r) ∧
    (∀ (sep : Char) (v : Str), (∃ r, separated_key_value sep v = Except.ok r) ↔ sep ∈ v) ∧
    (∀ v : Str, (∃ r, comma_separated_key_value_list v = Except.ok r) ↔
      ∀ t ∈ delimited_list ',' v, '=' ∈ t) := by
  refine ⟨fun v => ⟨_, rfl⟩, fun v => ⟨_, rfl⟩, fun v => ⟨_, rfl⟩, fun v => ⟨_, rfl⟩,
    fun v => ⟨_, rfl⟩, fun v => ⟨_, rfl⟩, fun v => ⟨_, rfl⟩, fun v => ⟨_, rfl⟩, ?_, ?_⟩
  · intro sep v
    constructor
    · rintro ⟨r, hr⟩
      by_contra h
      rw [separated_key_value_error_of_not_mem h] at hr
      exact absurd hr (by simp)
    · intro h
      exact ⟨_, separated_key_value_ok_of_mem h⟩
  · intro v
    rw [comma_separated_key_value_list]
    rw [mapExcept_ok_iff]
    constructor
    · intro h t ht
      obtain ⟨y, hy⟩ := h t ht
      by_contra hmem
      rw [separated_key_value_error_of_not_mem hmem] at hy
      exact absurd hy (by simp)
    · intro h t ht
      exact ⟨_, separated_key_value_ok_of_mem (h t ht)⟩

/-! ## Claim C6 -/

theorem mapExcept_eq_map_of {α β : Type} {f : α → Py β} {g : α → β} {l : List α}
    (h : ∀ x ∈ l, f x = .ok (g x)) : mapExcept f l = .ok (l.map g) := by
  induction l with
  | nil => rfl
  | cons x xs ih =>
    rw [mapExcept, h x (List.mem_cons_self x xs),
      ih (fun a ha => h a (List.mem_cons_of_mem x ha))]
    rfl

theorem mem_keys_dictInsert_self {α : Type} (d : List (Str × α)) (k : Str) (v : α) :
    k ∈ (dictInsert d k v).map Prod.fst := by
  induction d with
  | nil => exact List.mem_cons_self k []
  | cons kv rest ih =>
    obtain ⟨k', v'⟩ := kv
    rw [dictInsert]
    by_cases h : k' = k
    · rw [if_pos h, List.map_cons]
      exact List.mem_cons.mpr (Or.inl h.symm)
    · rw [if_neg h, List.map_cons]
      exact List.mem_cons_of_mem _ ih

theorem mem_keys_dictInsert_of_mem {α : Type} {d : List (Str × α)} {k : Str}
    (k0 : Str) (v0 : α) (h : k ∈ d.map Prod.fst) :
    k ∈ (dictInsert d k0 v0).map Prod.fst := by
  induction d with
  | nil => exact absurd h (List.not_mem_nil k)
  | cons kv rest ih =>
    obtain ⟨k', v'⟩ := kv
    rw [List.map_cons] at h
    rw [dictInsert]
    by_cases hk : k' = k0
    · rw [if_pos hk, List.map_cons]
      exact h
    · rw [if_neg hk, List.map_cons]
      rcases List.mem_cons.mp h with h' | h'
      · exact List.mem_cons.mpr (Or.inl h')
      · exact List.mem_cons.mpr (Or.inr (ih h'))

theorem mem_keys_foldl_dictInsert {α : Type} (entries : List (Str × α)) :
    ∀ (d : List (Str × α)) (k : Str),
      (k ∈ entries.map Prod.fst ∨ k ∈ d.map Prod.fst) →
      k ∈ (entries.foldl (fun d kv => dictInsert d kv.1 kv.2) d).map Prod.fst := by
  induction entries with
  | nil =>
    intro d k h
    rcases h with h | h
    · exact absurd h (List.not_mem_nil k)
    · exact h
  | cons kv0 rest ih =>
    intro d k h
    obtain ⟨k0, v0⟩ := kv0
    rw [List.foldl_cons]
    apply ih
    rcases h with h | h
    · rw [List.map_cons] at h
      rcases List.mem_cons.mp h with h' | h'
      · subst h'
        exact Or.inr (mem_keys_dictInsert_self d k v0)
      · exact Or.inl h'
    · exact Or.inr (mem_keys_dictInsert_of_mem k0 v0 h)

theorem tresLoop_error_of_bad (entries : List (Str × Str)) :
    ∀ (tp : List (Str × TresVal)) (g : List (Str × Option Int)) (ls : List (Str × List Str)),
      (∃ kv ∈ entries, tresBadKey kv.1) →
      tresLoop entries tp g ls = .error "AssertionError" := by
  induction entries with
  | nil =>
    intro tp g ls h
    obtain ⟨kv, hm, _⟩ := h
    simp at hm
  | cons kv0 rest ih =>
    intro tp g ls h
    obtain ⟨k, v⟩ := kv0
    rw [tresLoop]
    by_cases h1 : ("gres".toList).isPrefixOf k = true
    · rw [if_pos h1]
      apply ih
      obtain ⟨kv, hm, hbad⟩ := h
      rcases List.mem_cons.mp hm with h' | h'
      · subst h'
        exact absurd h1 hbad.1
      · exact ⟨kv, h', hbad⟩
    · rw [if_neg h1]
      by_cases h2 : k ∈ TresSpec.listKeys
      · rw [if_pos h2]
        apply ih
        obtain ⟨kv, hm, hbad⟩ := h
        rcases List.mem_cons.mp hm with h' | h'
        · subst h'
          exact absurd h2 hbad.2.1
        · exact ⟨kv, h', hbad⟩
      · rw [if_neg h2]
        by_cases h3 : k ∈ TresSpec.numericKeys
        · rw [if_pos h3]
          apply ih
          obtain ⟨kv, hm, hbad⟩ := h
          rcases List.mem_cons.mp hm with h' | h'
          · subst h'
            exact absurd h3 hbad.2.2
          · exact ⟨kv, h', hbad⟩
        · rw [if_neg h3]

/-- C6: whenever every comma token of the input contains `'='` and some
token's case-folded key is outside the closed TRES vocabulary (not
`gres`-prefixed, not a list key, not a numeric key), `TresSpec.from_string`
raises the `assert False` fallthrough (AssertionError) instead of skipping
the key or returning a decoded value. -/
theorem c6_tres_closed_vocabulary :
    ∀ v : Str, (∀ t ∈ delimited_list ',' v, '=' ∈ t) →
      (∃ t ∈ delimited_list ',' v, tresBadKey (caseFold (splitFirst '=' t).1)) →
      TresSpec.from_string v = .error "AssertionError" := by
  intro v hall hbad
  have hmap :
      mapExcept (separated_key_value '=') (delimited_list ',' v)
        = .ok ((delimited_list ',' v).map fun t => ((splitFirst '=' t).1, (splitFirst '=' t).2)) :=
    mapExcept_eq_map_of (fun t ht => separated_key_value_ok_of_mem (hall t ht))
  obtain ⟨t0, ht0, hbad0⟩ := hbad
  have hmem : caseFold (splitFirst '=' t0).1 ∈
      (((((delimited_list ',' v).map fun t => ((splitFirst '=' t).1, (splitFirst '=' t).2)).map
          Prod.fst).map caseFold).zip
        (((delimited_list ',' v).map fun t => ((splitFirst '=' t).1, (splitFirst '=' t).2)).map
          Prod.snd)).map Prod.fst := by
    rw [List.map_map, List.map_map, List.map_map, List.zip_map']
    rw [List.map_map]
    exact List.mem_map_of_mem _ ht0
  have hkeys := mem_keys_foldl_dictInsert _ [] _ (Or.inl hmem)
  obtain ⟨kv', hkv', hk'⟩ := List.mem_map.mp hkeys
  have hloop := tresLoop_error_of_bad _ [] [] [] ⟨kv', hkv', hk' ▸ hbad0⟩
  rw [TresSpec.from_string, hmap]
  dsimp only
  rw [hloop]

/-- C6 witness: `"foo=3"` has a well-formed token whose key `foo` is outside
the vocabulary, so decoding fails with the assertion. -/
theorem c6_tres_witness : TresSpec.from_string ("foo=3".toList) = .error "AssertionError" :=
  c6_tres_closed_vocabulary ("foo=3".toList) (by decide) (by decide)

/-! ## Claim C1 -/

theorem splitCh_ne_nil (c : Char) (l : Str) : splitCh c l ≠ [] := by
  cases l with
  | nil => simp [splitCh]
  | cons x xs =>
    rw [splitCh]
    cases h : splitCh c xs with
    | nil => simp
    | cons y ys =>
      by_cases hx : x = c <;> simp [hx]

theorem sepJoinC_nil (c : Char) : sepJoinC c [] = [] :=
  rfl

theorem sepJoinC_cons (c : Char) (x : Str) (xs : List Str) :
    sepJoinC c (x :: xs) = c :: (x ++ sepJoinC c xs) :=
  rfl

theorem joinC_singleton (c : Char) (x : Str) : joinC c [x] = x := by
  rw [joinC, sepJoinC_nil, List.append_nil]

theorem sepJoinC_append (c : Char) (a b : List Str) :
    sepJoinC c (a ++ b) = sepJoinC c a ++ sepJoinC c b := by
  simp [sepJoinC]

theorem joinC_append_of_ne_nil (c : Char) {xs : List Str} (ys : List Str) (h : xs ≠ []) :
    joinC c (xs ++ ys) = joinC c xs ++ sepJoinC c ys := by
  cases xs with
  | nil => exact absurd rfl h
  | cons x xs' =>
    rw [List.cons_append, joinC, joinC, sepJoinC_append, List.append_assoc]

theorem joinC_splitCh (c : Char) (l : Str) : joinC c (splitCh c l) = l := by
  induction l with
  | nil => simp [splitCh, joinC, sepJoinC]
  | cons x xs ih =>
    rw [splitCh]
    cases h : splitCh c xs with
    | nil => exact absurd h (splitCh_ne_nil c xs)
    | cons y ys =>
      rw [h] at ih
      dsimp only
      by_cases hx : x = c
      · rw [if_pos hx, joinC, sepJoinC_cons]
        rw [joinC] at ih
        rw [List.nil_append, ih, hx]
      · rw [if_neg hx, joinC]
        rw [joinC] at ih
        rw [List.cons_append, ih]

theorem dropWhile_append_cons_of_neg {α : Type} (p : α → Bool) {y : α}
    (hy : p y = false) (xs zs : List α) :
    List.dropWhile p (xs ++ y :: zs) = List.dropWhile p xs ++ y :: zs := by
  induction xs with
  | nil =>
    rw [List.nil_append, List.dropWhile_nil, List.nil_append, List.dropWhile_cons, hy]
    simp
  | cons x xs' ih =>
    rw [List.cons_append, List.dropWhile_cons, List.dropWhile_cons]
    cases hx : p x
    · simp only [Bool.false_eq_true, if_false]
      rfl
    · simp only [if_true]
      exact ih

theorem hasEq_iff (p : Str) : hasEq p = true ↔ '=' ∈ p := by
  rw [hasEq, List.contains]
  exact List.elem_iff

theorem splitFirst_reconstruct {c : Char} : ∀ {l : Str}, c ∈ l →
    (splitFirst c l).1 ++ c :: (splitFirst c l).2 = l := by
  intro l
  induction l with
  | nil => intro h; exact absurd h (List.not_mem_nil c)
  | cons x xs ih =>
    intro h
    rw [splitFirst]
    by_cases hx : x = c
    · rw [if_pos hx, hx]
      rfl
    · rw [if_neg hx]
      have hm : c ∈ xs := by
        rcases List.mem_cons.mp h with h' | h'
        · exact absurd h'.symm hx
        · exact h'
      show x :: ((splitFirst c xs).1 ++ c :: (splitFirst c xs).2) = x :: xs
      rw [ih hm]

theorem tokenizeAux_eq_nil_iff : ∀ (rparts acc : List Str),
    tokenizeAux rparts acc = [] ↔ ∀ p ∈ rparts, hasEq p = false := by
  intro rparts
  induction rparts with
  | nil => intro acc; simp [tokenizeAux]
  | cons p ps ih =>
    intro acc
    rw [tokenizeAux]
    cases h : hasEq p with
    | false =>
      rw [if_neg Bool.false_ne_true]
      rw [ih]
      constructor
      · intro hall q hq
        rcases List.mem_cons.mp hq with h' | h'
        · rw [h']; exact h
        · exact hall q h'
      · intro hall q hq
        exact hall q (List.mem_cons_of_mem p hq)
    | true =>
      rw [if_pos rfl]
      constructor
      · intro hfalse
        exact absurd hfalse (by simp)
      · intro hall
        exact absurd (hall p (List.mem_cons_self p ps)) (by rw [h]; simp)

theorem tokenizeAux_reconstruct : ∀ (rparts acc : List Str),
    (∀ p ∈ acc, hasEq p = false) →
    joinC ' ' ((tokenizeAux rparts acc).reverse.map joinPair)
      = joinC ' ' ((rparts.reverse ++ acc).dropWhile (fun p => !hasEq p)) := by
  intro rparts
  induction rparts with
  | nil =>
    intro acc hacc
    rw [tokenizeAux]
    have hd : (([] : List Str).reverse ++ acc).dropWhile (fun p => !hasEq p) = [] := by
      rw [List.dropWhile_eq_nil_iff]
      intro x hx
      rw [hacc x (by simpa using hx)]
      rfl
    rw [hd]
    rfl
  | cons p ps ih =>
    intro acc hacc
    rw [tokenizeAux]
    cases h : hasEq p with
    | false =>
      rw [if_neg Bool.false_ne_true]
      rw [ih (p :: acc) (by
        intro q hq
        rcases List.mem_cons.mp hq with h' | h'
        · rw [h']; exact h
        · exact hacc q h')]
      rw [List.reverse_cons, List.append_assoc]
      rfl
    | true =>
      rw [if_pos rfl]
      have hmem : '=' ∈ p := (hasEq_iff p).mp h
      have hsplit := splitFirst_reconstruct hmem
      have hR : List.dropWhile (fun q => !hasEq q) ((p :: ps).reverse ++ acc)
          = List.dropWhile (fun q => !hasEq q) ps.reverse ++ p :: acc := by
        rw [List.reverse_cons, List.append_assoc, List.cons_append, List.nil_append]
        exact dropWhile_append_cons_of_neg _ (by simp [h]) _ _
      rw [hR]
      cases hT : tokenizeAux ps [] with
      | nil =>
        have hall : ∀ q ∈ ps, hasEq q = false := (tokenizeAux_eq_nil_iff ps []).mp hT
        have hdrop : List.dropWhile (fun q => !hasEq q) ps.reverse = [] := by
          rw [List.dropWhile_eq_nil_iff]
          intro x hx
          rw [hall x (List.mem_reverse.mp hx)]
          rfl
        rw [hdrop, List.nil_append]
        rw [List.reverse_cons, List.reverse_nil, List.nil_append, List.map_cons, List.map_nil]
        rw [joinC_singleton]
        show joinPair ((splitFirst '=' p).1, joinC ' ' ((splitFirst '=' p).2 :: acc))
          = joinC ' ' (p :: acc)
        rw [joinPair, joinC, joinC]
        show (splitFirst '=' p).1 ++ '=' :: ((splitFirst '=' p).2 ++ sepJoinC ' ' acc)
          = p ++ sepJoinC ' ' acc
        conv_rhs => rw [← hsplit]
        rw [List.append_assoc, List.cons_append]
      | cons t ts =>
        have ihz := ih [] (by intro q hq; exact absurd hq (List.not_mem_nil q))
        rw [List.append_nil, hT] at ihz
        have hDne : List.dropWhile (fun q => !hasEq q) ps.reverse ≠ [] := by
          intro hD
          have hall := List.dropWhile_eq_nil_iff.mp hD
          have hps : ∀ q ∈ ps, hasEq q = false := by
            intro q hq
            have hq' := hall q (List.mem_reverse.mpr hq)
            revert hq'
            cases hasEq q <;> simp
          rw [(tokenizeAux_eq_nil_iff ps []).mpr hps] at hT
          exact absurd hT (by simp)
        rw [List.reverse_cons, List.map_append, List.map_cons, List.map_nil]
        rw [joinC_append_of_ne_nil ' ' _ (by simp)]
        rw [ihz]
        rw [joinC_append_of_ne_nil ' ' _ hDne]
        rw [sepJoinC_cons]
        show _ ++ sepJoinC ' '
            [joinPair ((splitFirst '=' p).1, joinC ' ' ((splitFirst '=' p).2 :: acc))] = _
        rw [sepJoinC_cons, sepJoinC_nil, List.append_nil]
        rw [joinPair]
        show _ ++ (' ' :: ((splitFirst '=' p).1 ++ '=' :: joinC ' ' ((splitFirst '=' p).2 :: acc)))
          = _ ++ (' ' :: (p ++ sepJoinC ' ' acc))
        rw [joinC]
        conv_rhs => rw [← hsplit]
        rw [List.append_assoc, List.cons_append]

theorem splitCh_append_no_sep (c : Char) : ∀ (a b : Str), (∀ x ∈ a, x ≠ c) →
    ∃ y ys, splitCh c b = y :: ys ∧ splitCh c (a ++ b) = (a ++ y) :: ys := by
  intro a
  induction a with
  | nil =>
    intro b _
    cases hsp : splitCh c b with
    | nil => exact absurd hsp (splitCh_ne_nil c b)
    | cons y ys => exact ⟨y, ys, rfl, by rw [List.nil_append, hsp, List.nil_append]⟩
  | cons x xs ih =>
    intro b hno
    obtain ⟨y, ys, hyb, hyab⟩ := ih b (fun t ht => hno t (List.mem_cons_of_mem x ht))
    refine ⟨y, ys, hyb, ?_⟩
    rw [List.cons_append, splitCh, hyab]
    dsimp only
    rw [if_neg (hno x (List.mem_cons_self x xs))]
    rfl

/-- C1: for every line assembled by space-joining `field=value` pairs whose
keys are non-empty and contain neither a space nor `'='`, and whose values do
not start with a space, re-joining the tokenizer output in reversed order
(with `'='` inside each pair and single spaces between pairs) restores the
original line exactly. -/
theorem c1_tokenizer_roundtrip :
    ∀ pairs : List (Str × Str),
      (∀ kv ∈ pairs, kv.1 ≠ [] ∧ ' ' ∉ kv.1 ∧ '=' ∉ kv.1) →
      (∀ kv ∈ pairs, kv.2.head? ≠ some ' ') →
      joinC ' ' ((tokenize_scontrol_line (joinC ' ' (pairs.map joinPair))).reverse.map joinPair)
        = joinC ' ' (pairs.map joinPair) := by
  intro pairs hk _hv
  rw [tokenize_scontrol_line]
  rw [tokenizeAux_reconstruct _ [] (by intro q hq; exact absurd hq (List.not_mem_nil q))]
  rw [List.append_nil, List.reverse_reverse]
  cases pairs with
  | nil =>
    decide
  | cons kv rest =>
    obtain ⟨k, v⟩ := kv
    have hk0 := hk (k, v) (List.mem_cons_self _ _)
    have hknos : ∀ x ∈ k, x ≠ ' ' := fun x hx h' => hk0.2.1 (h' ▸ hx)
    have hline : joinC ' ' (((k, v) :: rest).map joinPair)
        = k ++ '=' :: (v ++ sepJoinC ' ' (rest.map joinPair)) := by
      rw [List.map_cons, joinC, joinPair, List.append_assoc]
      rfl
    obtain ⟨z, zs, _hzw, hz⟩ :=
      splitCh_append_no_sep ' ' ['='] (v ++ sepJoinC ' ' (rest.map joinPair)) (by decide)
    obtain ⟨y, ys, hyb, hyab⟩ :=
      splitCh_append_no_sep ' ' k ('=' :: (v ++ sepJoinC ' ' (rest.map joinPair))) hknos
    rw [show (['='] : Str) ++ (v ++ sepJoinC ' ' (rest.map joinPair))
        = '=' :: (v ++ sepJoinC ' ' (rest.map joinPair)) from rfl] at hz
    rw [hz] at hyb
    injection hyb with hy1 hy2
    subst hy1
    subst hy2
    rw [hline, hyab]
    have hhead : hasEq (k ++ (['='] ++ z)) = true := by
      rw [hasEq_iff]
      exact List.mem_append_right k (List.mem_append_left z (List.mem_cons_self '=' []))
    rw [List.dropWhile_cons]
    rw [hhead]
    rw [if_neg (show ¬((!true) = true) by decide)]
    rw [← hyab, ← hline, joinC_splitCh]

/-- C1 witness: the single pair `("a", "b")` assembles to the line `"a=b"`
and round-trips through the tokenizer. -/
theorem c1_tokenizer_witness :
    joinC ' ' ((tokenize_scontrol_line (joinC ' ' ([(("a".toList : Str), ("b".toList : Str))].map joinPair))).reverse.map joinPair)
      = joinC ' ' ([(("a".toList : Str), ("b".toList : Str))].map joinPair) :=
  c1_tokenizer_roundtrip [("a".toList, "b".toList)] (by decide) (by decide)

/-! ## Claim C10 -/

theorem mem_of_getLast?_eq {α : Type} : ∀ {l : List α} {a : α}, l.getLast? = some a → a ∈ l := by
  intro l
  induction l with
  | nil => intro a h; exact Option.noConfusion (List.getLast?_nil ▸ h)
  | cons x xs ih =>
    intro a h
    cases hxs : xs with
    | nil =>
      rw [hxs] at h
      rw [List.getLast?_singleton] at h
      rw [← Option.some.inj h]
      exact List.mem_cons_self x []
    | cons y ys =>
      rw [hxs] at h
      rw [List.getLast?_cons_cons] at h
      exact List.mem_cons_of_mem x (hxs ▸ ih (hxs ▸ h))

theorem singleAux_none_of_last_not_digit :
    ∀ (l : Str) (pre : Str) (x : Char), l.getLast? = some x → isDigitCh x = false →
      singleAux pre l = none := by
  intro l
  induction l with
  | nil => intro pre x hx _; exact Option.noConfusion (List.getLast?_nil ▸ hx)
  | cons c cs ih =>
    intro pre x hx hd
    rw [singleAux]
    have hcond : ¬(pre ≠ [] ∧ (c :: cs).all isDigitCh = true) := by
      rintro ⟨_, hall⟩
      have hxm : x ∈ c :: cs := mem_of_getLast?_eq hx
      have := List.all_eq_true.mp hall x hxm
      rw [hd] at this
      exact absurd this (by simp)
    rw [if_neg hcond]
    by_cases hn : c = '\n'
    · rw [if_pos hn]
    · rw [if_neg hn]
      cases hcs : cs with
      | nil => rfl
      | cons c' cs' =>
        have hx' : cs.getLast? = some x := by
          rw [hcs] at hx ⊢
          rw [List.getLast?_cons_cons] at hx
          exact hx
        exact hcs ▸ ih (c :: pre) x hx' hd

theorem rangeAux_none_of_no_lbrack :
    ∀ (l : Str) (pre : Str), '[' ∉ l → rangeAux pre l = none := by
  intro l
  induction l with
  | nil => intro pre _; rfl
  | cons c cs ih =>
    intro pre hmem
    have hc : c ≠ '[' := fun h => hmem (h ▸ List.mem_cons_self c cs)
    have hcs : '[' ∉ cs := fun h => hmem (List.mem_cons_of_mem c h)
    rw [rangeAux]
    rw [if_neg (by rintro ⟨h, _⟩; exact hc h)]
    by_cases hn : c = '\n'
    · rw [if_pos hn]
    · rw [if_neg hn]
      exact ih _ hcs

theorem takeWhile_append_of_all {f : Char → Bool} :
    ∀ (d : Str) (y : Char) (r : Str), (∀ c ∈ d, f c = true) → f y = false →
      (d ++ y :: r).takeWhile f = d ∧ (d ++ y :: r).dropWhile f = y :: r := by
  intro d
  induction d with
  | nil =>
    intro y r _ hy
    rw [List.nil_append, List.takeWhile_cons, List.dropWhile_cons, hy]
    simp
  | cons c cs ih =>
    intro y r hall hy
    have hc := hall c (List.mem_cons_self c cs)
    obtain ⟨h1, h2⟩ := ih y r (fun a ha => hall a (List.mem_cons_of_mem c ha)) hy
    constructor
    · rw [List.cons_append, List.takeWhile_cons, hc]
      simp only [if_true]
      rw [h1]
    · rw [List.cons_append, List.dropWhile_cons, hc]
      simp only [if_true]
      rw [h2]

theorem rangeBody_none_of_digits_rbrack {d : Str} (hd : ∀ c ∈ d, isDigitCh c = true) :
    rangeBody (d ++ [']']) = none := by
  obtain ⟨h1, h2⟩ := takeWhile_append_of_all d ']' [] hd (by decide)
  rw [rangeBody, h2]
  rfl

theorem rangeAux_none_through :
    ∀ (xs : Str) (pre : Str) (body : Str), '[' ∉ xs → rangeBody body = none → '[' ∉ body →
      rangeAux pre (xs ++ '[' :: body) = none := by
  intro xs
  induction xs with
  | nil =>
    intro pre body _ hbody hnob
    rw [List.nil_append, rangeAux, hbody]
    by_cases hp : pre ≠ []
    · rw [if_pos ⟨rfl, hp⟩]
      exact rangeAux_none_of_no_lbrack body _ hnob
    · rw [if_neg (by rintro ⟨_, h⟩; exact hp h)]
      rw [if_neg (by decide)]
      exact rangeAux_none_of_no_lbrack body _ hnob
  | cons x xs' ih =>
    intro pre body hmem hbody hnob
    have hx : x ≠ '[' := fun h => hmem (h ▸ List.mem_cons_self x xs')
    have hxs : '[' ∉ xs' := fun h => hmem (List.mem_cons_of_mem x h)
    rw [List.cons_append, rangeAux]
    rw [if_neg (by rintro ⟨h, _⟩; exact hx h)]
    by_cases hn : x = '\n'
    · rw [if_pos hn]
    · rw [if_neg hn]
      exact ih _ body hxs hbody hnob

theorem splitCh_eq_singleton_of_not_mem {c : Char} :
    ∀ {b : Str}, (∀ x ∈ b, x ≠ c) → splitCh c b = [b] := by
  intro b
  induction b with
  | nil => intro _; rfl
  | cons y ys ih =>
    intro hb
    rw [splitCh, ih (fun x hx => hb x (List.mem_cons_of_mem y hx))]
    dsimp only
    rw [if_neg (hb y (List.mem_cons_self y ys))]

theorem splitCh_append_last (c : Char) :
    ∀ (a b : Str), (∀ x ∈ b, x ≠ c) →
      ∃ qs q, splitCh c (a ++ b) = qs ++ [q ++ b] ∧ (∀ x ∈ q, x ∈ a) := by
  intro a
  induction a with
  | nil =>
    intro b hb
    refine ⟨[], [], ?_, fun x hx => absurd hx (List.not_mem_nil x)⟩
    simp only [List.nil_append]
    exact splitCh_eq_singleton_of_not_mem hb
  | cons x xs ih =>
    intro b hb
    obtain ⟨qs, q, hsp, hq⟩ := ih b hb
    rw [List.cons_append, splitCh, hsp]
    cases qs with
    | nil =>
      simp only [List.nil_append]
      by_cases hx : x = c
      · refine ⟨[[]], q, ?_, fun t ht => List.mem_cons_of_mem x (hq t ht)⟩
        dsimp only
        rw [if_pos hx]
        rfl
      · refine ⟨[], x :: q, ?_, ?_⟩
        · dsimp only
          rw [if_neg hx]
          simp
        · intro t ht
          rcases List.mem_cons.mp ht with h' | h'
          · rw [h']; exact List.mem_cons_self x xs
          · exact List.mem_cons_of_mem x (hq t h')
    | cons q0 qs' =>
      rw [List.cons_append]
      dsimp only
      by_cases hx : x = c
      · refine ⟨[] :: q0 :: qs', q, ?_, fun t ht => List.mem_cons_of_mem x (hq t ht)⟩
        rw [if_pos hx]
        rfl
      · refine ⟨(x :: q0) :: qs', q, ?_, fun t ht => List.mem_cons_of_mem x (hq t ht)⟩
        rw [if_neg hx]
        rfl

theorem nodeSpec_from_string_bracketed_none {q d : Str}
    (hq : '[' ∉ q) (hd : ∀ c ∈ d, isDigitCh c = true) :
    NodeSpec.from_string (q ++ '[' :: (d ++ [']'])) = none := by
  have hlast : (q ++ '[' :: (d ++ [']'])).getLast? = some ']' := by
    have hform : q ++ '[' :: (d ++ [']']) = (q ++ '[' :: d) ++ [']'] := by
      rw [List.append_assoc]
      rfl
    rw [hform, List.getLast?_concat]
  have hsingle : nodeSingleMatch (q ++ '[' :: (d ++ [']'])) = none := by
    rw [nodeSingleMatch]
    rw [if_neg (by rw [hlast]; intro h; exact absurd (Option.some.inj h) (by decide))]
    exact singleAux_none_of_last_not_digit _ [] ']' hlast (by decide)
  have hrange : nodeRangeMatch (q ++ '[' :: (d ++ [']'])) = none := by
    rw [nodeRangeMatch]
    exact rangeAux_none_through q [] _ hq (rangeBody_none_of_digits_rbrack hd)
      (by
        intro hmem
        rcases List.mem_append.mp hmem with h | h
        · have := hd '[' h
          exact absurd this (by decide)
        · rcases List.mem_cons.mp h with h' | h'
          · exact absurd h' (by decide)
          · exact absurd h' (List.not_mem_nil _))
  rw [NodeSpec.from_string, hsingle, hrange]

/-- C10 counterexample: the claim quantifies over EVERY prefix `p`; for the
prefix `"x[1-2]"` (which itself contains a bracketed digit range) the token
`"x[1-2][0001]"` is matched by the range regex (lazy prefix `"x"`, range
`1-2`, trailing text ignored), so `NodeList.from_string` returns a value,
not `None`. -/
theorem c10_bracketed_single_counterexample :
    (NodeList.from_string (("x[1-2]".toList : Str) ++ '[' :: (("0001".toList : Str) ++ [']']))).isSome
      = true := by
  decide

/-- C10 (amended): for every prefix `p` that contains no `'['` and every
non-empty digit string `d`, `NodeList.from_string` on a list containing the
token `p ++ "[" ++ d ++ "]"` (brackets around a single value, no hyphenated
range) returns `None`: the single-suffix pattern requires the token to end
in a digit and the range pattern requires two hyphen-separated endpoints. -/
theorem c10_bracketed_single_rejected :
    ∀ (p d : Str), '[' ∉ p → d ≠ [] → (∀ c ∈ d, isDigitCh c = true) →
      NodeList.from_string (p ++ '[' :: (d ++ [']'])) = none := by
  intro p d hp _hd hdig
  rw [NodeList.from_string]
  have hb : ∀ x ∈ ('[' :: (d ++ [']']) : Str), x ≠ ',' := by
    intro x hx
    rcases List.mem_cons.mp hx with h' | h'
    · rw [h']; decide
    · rcases List.mem_append.mp h' with h'' | h''
      · intro hc
        have := hdig x h''
        rw [hc] at this
        exact absurd this (by decide)
      · rcases List.mem_cons.mp h'' with h3 | h3
        · rw [h3]; decide
        · exact absurd h3 (List.not_mem_nil _)
  obtain ⟨qs, q, hsp, hq⟩ := splitCh_append_last ',' p ('[' :: (d ++ [']'])) hb
  rw [delimited_list, hsp]
  have hlastnone : NodeSpec.from_string (q ++ '[' :: (d ++ [']'])) = none :=
    nodeSpec_from_string_bracketed_none (fun h => hp (hq '[' h)) hdig
  have hany : anyNone ((qs ++ [q ++ '[' :: (d ++ [']'])]).map NodeSpec.from_string) = true := by
    rw [anyNone, List.any_eq_true]
    refine ⟨NodeSpec.from_string (q ++ '[' :: (d ++ [']'])), ?_, by rw [hlastnone]; rfl⟩
    exact List.mem_map_of_mem _ (List.mem_append_right qs (List.mem_cons_self _ []))
  rw [if_pos hany]

/-- C10 witness: the amended claim evaluated at prefix `"c"` and digits
`"0001"` — the token `"c[0001]"` is rejected. -/
theorem c10_bracketed_single_witness :
    NodeList.from_string (("c".toList : Str) ++ '[' :: (("0001".toList : Str) ++ [']'])) = none :=
  c10_bracketed_single_rejected ("c".toList) ("0001".toList) (by decide) (by decide) (by decide)

/-! ## Claim C8 -/

theorem isDigitCh_bounds {c : Char} (h : isDigitCh c = true) :
    48 ≤ c.toNat ∧ c.toNat ≤ 57 := by
  rw [isDigitCh, Bool.and_eq_true, decide_eq_true_iff, decide_eq_true_iff] at h
  exact h

theorem chVal_lt_ten {c : Char} (h : isDigitCh c = true) : chVal c < 10 := by
  obtain ⟨_, h2⟩ := isDigitCh_bounds h
  rw [chVal]
  omega

theorem ofNat_chVal {c : Char} (h : isDigitCh c = true) :
    Char.ofNat (48 + chVal c) = c := by
  obtain ⟨h1, _⟩ := isDigitCh_bounds h
  rw [chVal, Nat.add_sub_cancel' h1, Char.ofNat_toNat]

theorem chVal_ne_zero {c : Char} (h : isDigitCh c = true) (hne : c ≠ '0') : chVal c ≠ 0 := by
  obtain ⟨h1, _⟩ := isDigitCh_bounds h
  intro hz
  apply hne
  have h48 : c.toNat = 48 := by
    rw [chVal] at hz
    omega
  have := Char.ofNat_toNat c
  rw [h48] at this
  rw [← this]

theorem natFold (l : Str) : ∀ a : Nat,
    l.foldl (fun a c => 10 * a + chVal c) a
      = a * 10 ^ l.length + Nat.ofDigits 10 ((l.map chVal).reverse) := by
  induction l with
  | nil =>
    intro a
    rw [List.foldl_nil, List.length_nil, pow_zero, mul_one, List.map_nil, List.reverse_nil,
      Nat.ofDigits_nil]
    omega
  | cons c cs ih =>
    intro a
    rw [List.foldl_cons, ih, List.map_cons, List.reverse_cons, Nat.ofDigits_append,
      Nat.ofDigits_singleton, List.length_reverse, List.length_map, List.length_cons,
      pow_succ]
    ring

theorem natOfDigits_eq_ofDigits (l : Str) :
    natOfDigits l = Nat.ofDigits 10 ((l.map chVal).reverse) := by
  rw [natOfDigits, natFold, zero_mul, zero_add]

theorem foldl_zeros {z : Str} (hz : ∀ c ∈ z, c = '0') :
    z.foldl (fun a c => 10 * a + chVal c) 0 = 0 := by
  induction z with
  | nil => rfl
  | cons c cs ih =>
    rw [List.foldl_cons]
    rw [hz c (List.mem_cons_self c cs)]
    show List.foldl (fun a c => 10 * a + chVal c) (10 * 0 + chVal '0') cs = 0
    rw [show (10 * 0 + chVal '0') = 0 from by decide]
    exact ih (fun a ha => hz a (List.mem_cons_of_mem c ha))

theorem natOfDigits_strip_zeros {z d0 : Str} (hz : ∀ c ∈ z, c = '0') :
    natOfDigits (z ++ d0) = natOfDigits d0 := by
  rw [natOfDigits, natOfDigits, List.foldl_append, foldl_zeros hz]

theorem digits_natOfDigits {c0 : Char} {rest : Str}
    (hdig : ∀ c ∈ c0 :: rest, isDigitCh c = true) (hne : c0 ≠ '0') :
    Nat.digits 10 (natOfDigits (c0 :: rest)) = ((c0 :: rest).map chVal).reverse := by
  rw [natOfDigits_eq_ofDigits]
  apply Nat.digits_ofDigits 10 (by norm_num)
  · intro x hx
    obtain ⟨c, hc, hcx⟩ := List.mem_map.mp (List.mem_reverse.mp hx)
    rw [← hcx]
    exact chVal_lt_ten (hdig c hc)
  · intro h
    have hform : (((c0 :: rest).map chVal).reverse)
        = ((rest.map chVal).reverse) ++ [chVal c0] := by
      rw [List.map_cons, List.reverse_cons]
    have hlast : (((c0 :: rest).map chVal).reverse).getLast? = some (chVal c0) := by
      rw [hform, List.getLast?_concat]
    have := List.getLast?_eq_getLast _ h
    rw [this] at hlast
    rw [Option.some.inj hlast]
    exact chVal_ne_zero (hdig c0 (List.mem_cons_self c0 rest)) hne

theorem decimalRepr_natOfDigits {c0 : Char} {rest : Str}
    (hdig : ∀ c ∈ c0 :: rest, isDigitCh c = true) (hne : c0 ≠ '0') :
    decimalRepr (natOfDigits (c0 :: rest)) = c0 :: rest := by
  rw [decimalRepr, digits_natOfDigits hdig hne]
  rw [← List.map_reverse, List.reverse_reverse, List.map_map]
  have : ∀ c ∈ c0 :: rest, ((fun d => Char.ofNat (48 + d)) ∘ chVal) c = id c := by
    intro c hc
    show Char.ofNat (48 + chVal c) = c
    exact ofNat_chVal (hdig c hc)
  rw [List.map_congr_left this, List.map_id]

theorem dropWhile_head_false {p : Char → Bool} :
    ∀ {l : Str} {c : Char} {r : Str}, l.dropWhile p = c :: r → p c = false := by
  intro l
  induction l with
  | nil => intro c r h; exact absurd h (by simp)
  | cons x xs ih =>
    intro c r h
    rw [List.dropWhile_cons] at h
    by_cases hx : p x = true
    · rw [hx] at h
      simp only [if_true] at h
      exact ih h
    · rw [Bool.not_eq_true] at hx
      rw [hx] at h
      simp only [Bool.false_eq_true, if_false] at h
      rw [← List.cons.inj h |>.1]
      exact hx

theorem padNat_roundtrip : ∀ (d : Str), d ≠ [] → (∀ c ∈ d, isDigitCh c = true) →
    padNat (natOfDigits d) d.length = d := by
  intro d hne hdig
  have hzd : d.takeWhile isZeroCh ++ d.dropWhile isZeroCh = d :=
    List.takeWhile_append_dropWhile isZeroCh d
  have hz : ∀ c ∈ d.takeWhile isZeroCh, c = '0' := by
    intro c hc
    have := List.mem_takeWhile_imp hc
    rw [isZeroCh] at this
    exact of_decide_eq_true this
  cases hd0 : d.dropWhile isZeroCh with
  | nil =>
    have hall : ∀ c ∈ d, c = '0' := by
      intro c hc
      apply hz
      rw [hd0, List.append_nil] at hzd
      rw [hzd]
      exact hc
    have hn0 : natOfDigits d = 0 := foldl_zeros hall
    have hrepr : decimalRepr 0 = [] := by
      rw [decimalRepr, Nat.digits_zero]
      rfl
    rw [hn0, padNat, hrepr, List.length_nil, List.append_nil, Nat.sub_zero]
    symm
    exact List.eq_replicate_iff.mpr ⟨rfl, hall⟩
  | cons c0 rest =>
    have hc0d : c0 ∈ d := by
      have hmm : c0 ∈ d.dropWhile isZeroCh := by
        rw [hd0]
        exact List.mem_cons_self c0 rest
      exact (List.dropWhile_sublist _).subset hmm
    have hc0 : c0 ≠ '0' := by
      have hhd := dropWhile_head_false hd0
      intro h
      rw [h] at hhd
      rw [isZeroCh] at hhd
      simp at hhd
    have hdig0 : ∀ c ∈ c0 :: rest, isDigitCh c = true := by
      intro c hc
      apply hdig
      have hmm : c ∈ d.dropWhile isZeroCh := by rw [hd0]; exact hc
      exact (List.dropWhile_sublist _).subset hmm
    have hnval : natOfDigits d = natOfDigits (c0 :: rest) := by
      conv_lhs => rw [← hzd, hd0]
      exact natOfDigits_strip_zeros hz
    have hlen : d.length = (d.takeWhile isZeroCh).length + (c0 :: rest).length := by
      conv_lhs => rw [← hzd, hd0]
      rw [List.length_append]
    rw [hnval, padNat, decimalRepr_natOfDigits hdig0 hc0, hlen, Nat.add_sub_cancel]
    have hrep : List.replicate (d.takeWhile isZeroCh).length '0' = d.takeWhile isZeroCh := by
      symm
      exact List.eq_replicate_iff.mpr ⟨rfl, hz⟩
    rw [hrep]
    conv_rhs => rw [← hzd, hd0]

theorem digit_ne_of_isDigitCh_false {c x : Char} (h : isDigitCh c = true)
    (hx : isDigitCh x = false) : c ≠ x := by
  intro he
  rw [he, hx] at h
  exact absurd h (by simp)

theorem singleAux_success : ∀ (rest pre : Str),
    (∀ c ∈ rest, c ≠ '\n') →
    (∃ a b, rest = a ++ b ∧ (pre ≠ [] ∨ a ≠ []) ∧ b ≠ [] ∧ ∀ c ∈ b, isDigitCh c = true) →
    ∃ pp vv, singleAux pre rest = some (pp, vv) ∧ pp ++ vv = pre.reverse ++ rest ∧
      vv ≠ [] ∧ (∀ c ∈ vv, isDigitCh c = true) ∧ pp ≠ [] := by
  intro rest
  induction rest with
  | nil =>
    rintro pre _ ⟨a, b, hab, _, hbne, _⟩
    obtain ⟨-, hb⟩ := List.append_eq_nil.mp hab.symm
    exact absurd hb hbne
  | cons c cs ih =>
    rintro pre hnl ⟨a, b, hab, hpre, hbne, hbd⟩
    rw [singleAux]
    by_cases hcond : pre ≠ [] ∧ (c :: cs).all isDigitCh = true
    · rw [if_pos hcond]
      refine ⟨pre.reverse, c :: cs, rfl, rfl, by simp, ?_, ?_⟩
      · exact fun x hx => List.all_eq_true.mp hcond.2 x hx
      · intro hrev
        exact hcond.1 (List.reverse_eq_nil_iff.mp hrev)
    · rw [if_neg hcond]
      have hcnl : c ≠ '\n' := hnl c (List.mem_cons_self c cs)
      rw [if_neg hcnl]
      cases ha : a with
      | nil =>
        rw [ha] at hab hpre
        rw [List.nil_append] at hab
        have hpre' : pre ≠ [] := by
          rcases hpre with h' | h'
          · exact h'
          · exact absurd rfl h'
        have hall : (c :: cs).all isDigitCh = true :=
          List.all_eq_true.mpr (fun x hx => hbd x (hab ▸ hx))
        exact absurd ⟨hpre', hall⟩ hcond
      | cons a0 a' =>
        rw [ha, List.cons_append] at hab
        have hcs : cs = a' ++ b := (List.cons.inj hab).2
        obtain ⟨pp, vv, h1, h2, h3, h4, h5⟩ :=
          ih (c :: pre) (fun x hx => hnl x (List.mem_cons_of_mem c hx))
            ⟨a', b, hcs, Or.inl (by simp), hbne, hbd⟩
        refine ⟨pp, vv, h1, ?_, h3, h4, h5⟩
        rw [h2, List.reverse_cons, List.append_assoc]
        rfl

theorem rangeBody_success {lo hi : Str} (tail : Str) (hlo : lo ≠ []) (hhi : hi ≠ [])
    (hlod : ∀ c ∈ lo, isDigitCh c = true) (hhid : ∀ c ∈ hi, isDigitCh c = true) :
    rangeBody (lo ++ '-' :: (hi ++ ']' :: tail)) = some (lo, hi) := by
  obtain ⟨t1, t2⟩ := takeWhile_append_of_all lo '-' (hi ++ ']' :: tail) hlod (by decide)
  obtain ⟨t3, t4⟩ := takeWhile_append_of_all hi ']' tail hhid (by decide)
  rw [rangeBody, t2]
  dsimp only
  rw [if_pos rfl, t1, t3]
  rw [if_pos ⟨hlo, hhi⟩, t4]
  dsimp only
  rw [if_pos rfl]

theorem rangeAux_success : ∀ (xs pre : Str) {body lo hi : Str},
    '[' ∉ xs → '\n' ∉ xs → (pre ≠ [] ∨ xs ≠ []) → rangeBody body = some (lo, hi) →
    rangeAux pre (xs ++ '[' :: body) = some (pre.reverse ++ xs, lo, hi) := by
  intro xs
  induction xs with
  | nil =>
    intro pre body lo hi _ _ hpre hbody
    have hpre' : pre ≠ [] := by
      rcases hpre with h' | h'
      · exact h'
      · exact absurd rfl h'
    rw [List.nil_append, rangeAux, hbody]
    rw [if_pos ⟨rfl, hpre'⟩]
    rw [List.append_nil]
  | cons x xs' ih =>
    intro pre body lo hi hlb hnl hpre hbody
    have hx : x ≠ '[' := fun h => hlb (h ▸ List.mem_cons_self x xs')
    have hxn : x ≠ '\n' := fun h => hnl (h ▸ List.mem_cons_self x xs')
    rw [List.cons_append, rangeAux]
    rw [if_neg (by rintro ⟨h, _⟩; exact hx h)]
    rw [if_neg hxn]
    rw [ih (x :: pre) (fun h => hlb (List.mem_cons_of_mem x h))
      (fun h => hnl (List.mem_cons_of_mem x h)) (Or.inl (by simp)) hbody]
    rw [List.reverse_cons, List.append_assoc]
    rfl

theorem nodeSpec_single_roundtrip {p d : Str} (hp : p ≠ []) (hnl : '\n' ∉ p) (hd : d ≠ [])
    (hdig : ∀ c ∈ d, isDigitCh c = true) :
    ∃ spec, NodeSpec.from_string (p ++ d) = some spec ∧ spec.toStr = p ++ d := by
  obtain ⟨x, hx⟩ : ∃ x, d.getLast? = some x := by
    cases hgl : d.getLast? with
    | none => exact absurd (List.getLast?_eq_none_iff.mp hgl) hd
    | some x => exact ⟨x, rfl⟩
  have hxd : isDigitCh x = true := hdig x (mem_of_getLast?_eq hx)
  have hlastpd : (p ++ d).getLast? = some x := by
    rw [List.getLast?_append_of_ne_nil p hd]
    exact hx
  have hnonl : ∀ c ∈ p ++ d, c ≠ '\n' := by
    intro c hc
    rcases List.mem_append.mp hc with h' | h'
    · exact fun he => hnl (he ▸ h')
    · exact digit_ne_of_isDigitCh_false (hdig c h') (by decide)
  obtain ⟨pp, vv, h1, h2, h3, h4, h5⟩ :=
    singleAux_success (p ++ d) [] hnonl ⟨p, d, rfl, Or.inr hp, hd, hdig⟩
  rw [List.reverse_nil, List.nil_append] at h2
  have hmatch : nodeSingleMatch (p ++ d) = some (pp, vv) := by
    rw [nodeSingleMatch]
    rw [if_neg (by
      rw [hlastpd]
      intro hcontra
      have := Option.some.inj hcontra
      rw [this] at hxd
      exact absurd hxd (by decide))]
    exact h1
  refine ⟨NodeSpec.from_parts pp vv vv, ?_, ?_⟩
  · rw [NodeSpec.from_string, hmatch]
  · rw [NodeSpec.from_parts, NodeSpec.toStr]
    dsimp only
    rw [if_pos (by omega)]
    rw [max_self]
    rw [pyFmtZeroPad]
    rw [if_neg (by
      intro hlt
      exact absurd hlt (by
        rw [Int.not_lt]
        exact Int.natCast_nonneg (natOfDigits vv)))]
    rw [Int.toNat_natCast]
    rw [padNat_roundtrip vv h3 h4]
    exact h2

theorem nodeSpec_range_roundtrip {p lo hi : Str} (hp : p ≠ []) (hnl : '\n' ∉ p)
    (hlb : '[' ∉ p) (hlo : lo ≠ []) (hhi : hi ≠ [])
    (hlod : ∀ c ∈ lo, isDigitCh c = true) (hhid : ∀ c ∈ hi, isDigitCh c = true)
    (hlen : lo.length = hi.length) (hlt : natOfDigits lo < natOfDigits hi) :
    ∃ spec, NodeSpec.from_string (p ++ '[' :: (lo ++ '-' :: (hi ++ [']']))) = some spec ∧
      spec.toStr = p ++ '[' :: (lo ++ '-' :: (hi ++ [']'])) := by
  have hlast : (p ++ '[' :: (lo ++ '-' :: (hi ++ [']']))).getLast? = some ']' := by
    have hform : p ++ '[' :: (lo ++ '-' :: (hi ++ [']']))
        = (p ++ '[' :: (lo ++ '-' :: hi)) ++ [']'] := by
      simp [List.append_assoc]
    rw [hform, List.getLast?_concat]
  have hsingle : nodeSingleMatch (p ++ '[' :: (lo ++ '-' :: (hi ++ [']']))) = none := by
    rw [nodeSingleMatch]
    rw [if_neg (by rw [hlast]; intro h; exact absurd (Option.some.inj h) (by decide))]
    exact singleAux_none_of_last_not_digit _ [] ']' hlast (by decide)
  have hbody : rangeBody (lo ++ '-' :: (hi ++ [']'])) = some (lo, hi) :=
    rangeBody_success [] hlo hhi hlod hhid
  have hrange : nodeRangeMatch (p ++ '[' :: (lo ++ '-' :: (hi ++ [']'])))
      = some (p, lo, hi) := by
    rw [nodeRangeMatch]
    rw [rangeAux_success p [] hlb hnl (Or.inr hp) hbody]
    rw [List.reverse_nil, List.nil_append]
  refine ⟨NodeSpec.from_parts p lo hi, ?_, ?_⟩
  · rw [NodeSpec.from_string, hsingle, hrange]
  · rw [NodeSpec.from_parts, NodeSpec.toStr]
    dsimp only
    rw [if_neg (sub_ne_zero.mpr (by
      intro hcontra
      have : natOfDigits hi = natOfDigits lo := by exact_mod_cast hcontra
      omega))]
    rw [pyFmtZeroPad, pyFmtZeroPad]
    rw [if_neg (by
      rw [Int.not_lt]
      exact Int.natCast_nonneg (natOfDigits lo))]
    rw [if_neg (by
      rw [Int.not_lt]
      exact Int.natCast_nonneg (natOfDigits hi))]
    rw [Int.toNat_natCast, Int.toNat_natCast]
    rw [hlen, max_self]
    rw [show padNat (natOfDigits lo) hi.length = padNat (natOfDigits lo) lo.length by rw [hlen]]
    rw [padNat_roundtrip lo hlo hlod, padNat_roundtrip hi hhi hhid]
    rw [List.append_assoc, List.cons_append]

theorem splitCh_append_sep (c : Char) : ∀ (a b : Str),
    splitCh c (a ++ c :: b) = splitCh c a ++ splitCh c b := by
  intro a
  induction a with
  | nil =>
    intro b
    rw [List.nil_append]
    cases hb : splitCh c b with
    | nil => exact absurd hb (splitCh_ne_nil c b)
    | cons y ys =>
      have hl : splitCh c (c :: b) = [] :: y :: ys := by
        rw [splitCh, hb]
        dsimp only
        rw [if_pos rfl]
      rw [hl]
      rfl
  | cons x xs ih =>
    intro b
    rw [List.cons_append, splitCh, ih]
    cases hxs : splitCh c xs with
    | nil => exact absurd hxs (splitCh_ne_nil c xs)
    | cons y ys =>
      have hr : splitCh c (x :: xs) = if x = c then [] :: y :: ys else (x :: y) :: ys := by
        rw [splitCh, hxs]
      rw [hr, List.cons_append]
      dsimp only
      by_cases hx : x = c
      · rw [if_pos hx, if_pos hx]
        rfl
      · rw [if_neg hx, if_neg hx]
        rfl

theorem splitCh_joinC_tokens (c : Char) : ∀ toks : List Str, toks ≠ [] →
    (∀ t ∈ toks, ∀ x ∈ t, x ≠ c) → splitCh c (joinC c toks) = toks := by
  intro toks
  induction toks with
  | nil => intro h _; exact absurd rfl h
  | cons t rest ih =>
    intro _ hno
    cases rest with
    | nil =>
      rw [joinC_singleton]
      exact splitCh_eq_singleton_of_not_mem (hno t (List.mem_cons_self t []))
    | cons t2 rest' =>
      have hj : joinC c (t :: t2 :: rest') = t ++ c :: joinC c (t2 :: rest') := by
        rw [joinC, sepJoinC_cons]
        rfl
      rw [hj, splitCh_append_sep]
      rw [splitCh_eq_singleton_of_not_mem (hno t (List.mem_cons_self t _))]
      rw [ih (by simp) (fun u hu x hx => hno u (List.mem_cons_of_mem t hu) x hx)]
      rfl

theorem nodeList_parse_specs : ∀ toks : List Str,
    (∀ t ∈ toks, ∃ s, NodeSpec.from_string t = some s ∧ s.toStr = t) →
    ∃ specs : List NodeSpec, toks.map NodeSpec.from_string = specs.map some ∧
      specs.map NodeSpec.toStr = toks := by
  intro toks
  induction toks with
  | nil => intro _; exact ⟨[], rfl, rfl⟩
  | cons t rest ih =>
    intro h
    obtain ⟨s, hs1, hs2⟩ := h t (List.mem_cons_self t rest)
    obtain ⟨specs, h1, h2⟩ := ih (fun u hu => h u (List.mem_cons_of_mem t hu))
    refine ⟨s :: specs, ?_, ?_⟩
    · rw [List.map_cons, hs1, h1]
      rfl
    · rw [List.map_cons, hs2, h2]

theorem filterMap_id_map_some {α : Type} (l : List α) :
    (l.map some).filterMap id = l := by
  induction l with
  | nil => rfl
  | cons x xs ih =>
    rw [List.map_cons, List.filterMap_cons]
    rw [ih]
    rfl

/-- C8: for every non-empty comma-joined list of node-spec tokens — each a
prefix with a single zero-padded numeric suffix or a prefix with a bracketed
zero-padded inclusive range — parsing with `NodeList.from_string` succeeds
and printing the result reproduces the original string exactly. -/
theorem c8_nodelist_roundtrip :
    ∀ toks : List Str, toks ≠ [] → (∀ t ∈ toks, GoodNodeToken t) →
      ∃ nl, NodeList.from_string (joinC ',' toks) = some nl ∧
        nl.toStr = joinC ',' toks := by
  intro toks hne hgood
  have hnoc : ∀ t ∈ toks, ∀ x ∈ t, x ≠ ',' := by
    intro t ht x hx
    rcases hgood t ht with ⟨p, d, hteq, _, hpc, _, _, hdig⟩ |
      ⟨p, lo, hi, hteq, _, hpc, _, _, _, _, hlod, hhid, _, _⟩
    · rw [hteq] at hx
      rcases List.mem_append.mp hx with h' | h'
      · exact fun he => hpc (he ▸ h')
      · exact digit_ne_of_isDigitCh_false (hdig x h') (by decide)
    · rw [hteq] at hx
      rcases List.mem_append.mp hx with h' | h'
      · exact fun he => hpc (he ▸ h')
      · rcases List.mem_cons.mp h' with h'' | h''
        · rw [h'']; decide
        · rcases List.mem_append.mp h'' with h3 | h3
          · exact digit_ne_of_isDigitCh_false (hlod x h3) (by decide)
          · rcases List.mem_cons.mp h3 with h4 | h4
            · rw [h4]; decide
            · rcases List.mem_append.mp h4 with h5 | h5
              · exact digit_ne_of_isDigitCh_false (hhid x h5) (by decide)
              · rcases List.mem_cons.mp h5 with h6 | h6
                · rw [h6]; decide
                · exact absurd h6 (List.not_mem_nil x)
  have hparse : ∀ t ∈ toks, ∃ s, NodeSpec.from_string t = some s ∧ s.toStr = t := by
    intro t ht
    rcases hgood t ht with ⟨p, d, hteq, hp, _, hnl, hd, hdig⟩ |
      ⟨p, lo, hi, hteq, hp, _, hnl, hlb, hlo, hhi, hlod, hhid, hlen, hlt⟩
    · rw [hteq]
      exact nodeSpec_single_roundtrip hp hnl hd hdig
    · rw [hteq]
      exact nodeSpec_range_roundtrip hp hnl hlb hlo hhi hlod hhid hlen hlt
  obtain ⟨specs, hmap, hstr⟩ := nodeList_parse_specs toks hparse
  rw [NodeList.from_string, delimited_list, splitCh_joinC_tokens ',' toks hne hnoc, hmap]
  have hanyn : anyNone (specs.map some) = false := by
    rw [anyNone]
    simp
  rw [if_neg (by rw [hanyn]; exact Bool.false_ne_true)]
  refine ⟨⟨specs⟩, ?_, ?_⟩
  · rw [filterMap_id_map_some]
  · rw [NodeList.toStr]
    show joinC ',' (specs.map NodeSpec.toStr) = _
    rw [hstr]

/-- C8 witness: the single-token list `["c0007"]` joins to `"c0007"`, parses,
and prints back unchanged. -/
theorem c8_nodelist_witness :
    ∃ nl, NodeList.from_string (joinC ',' [(("c0007".toList) : Str)]) = some nl ∧
      nl.toStr = joinC ',' [(("c0007".toList) : Str)] :=
  c8_nodelist_roundtrip [("c0007".toList)] (by decide)
    (by
      intro t ht
      rw [List.mem_singleton] at ht
      rw [ht]
      exact Or.inl ⟨"c".toList, "0007".toList, by decide, by decide, by decide, by decide,
        by decide, by decide⟩)
